import Mathlib

/-!
# quick: link scoring, ranking and the add path

A shallow embedding of `main.go` of the `quick` link index: the models
(`Link`, `Store`, `Weights`), `scoreLink`, `contains`, `parseLabels`,
`handleAdd` and the ranking loop of `main`, followed by theorems about them.

Modelling conventions.

* Go strings are Lean strings. `strings.ToLower` is a library function and is
  taken as a parameter `toLower : String → String` of every definition that
  calls it; the concrete inputs below use `asciiLower`, which agrees with the
  library on ASCII text.
* `float64` scores are rationals: the arithmetic is exact (no rounding, no
  infinities; a division by zero has the value 0 as everywhere in Mathlib).
* A `time.Time` is its number of nanoseconds since the zero instant, so
  `IsZero` is a comparison with 0. The wall clock read by `time.Since` is the
  parameter `now`, one instant for a whole ranking.
* A `map[string]string` is an association list; its iteration order is the
  order of the list.
* A run-time panic is an error value of `Except`.
-/

set_option linter.dupNamespace false

namespace Quick

/-! ## Library functions -/

/-- Lowercasing of the ASCII letters, character by character: the instance of
`strings.ToLower` used for concrete inputs. -/
def asciiLower (s : String) : String := ⟨s.data.map Char.toLower⟩

/-- Whether the characters `p` start the characters `s`. -/
def startsWith : List Char → List Char → Bool
  | _, [] => true
  | [], _ :: _ => false
  | c :: s, d :: p => c == d && startsWith s p

/-- Whether `sub` occurs in `s` at some position, scanning from the left. -/
def occursIn : List Char → List Char → Bool
  | [], sub => startsWith [] sub
  | c :: s, sub => startsWith (c :: s) sub || occursIn s sub

/-- The library function `strings.Contains(s, substr)`. -/
def stringsContains (s substr : String) : Bool := occursIn s.data substr.data

/-- The characters before and after the first `=`, if there is one. -/
def cutAtEq : List Char → Option (List Char × List Char)
  | [] => none
  | c :: cs =>
    if c = '=' then some ([], cs)
    else (cutAtEq cs).map (fun p => (c :: p.1, p.2))

/-- The library call `strings.SplitN(v, "=", 2)`: at most two parts, split at
the first `=`. -/
def splitEq2 (v : String) : List String :=
  match cutAtEq v.data with
  | none => [v]
  | some (a, b) => [⟨a⟩, ⟨b⟩]

/-- The saturation bounds of `time.Duration` (an int64 of nanoseconds). -/
def minDuration : Int := -(2 ^ 63)

/-- The largest `time.Duration`. -/
def maxDuration : Int := 2 ^ 63 - 1

/-- The library call `time.Since(t)`, that is `now.Sub(t)`: the difference in
nanoseconds, saturated to the range of `time.Duration`. -/
def timeSince (now t : Int) : Int :=
  if now - t > maxDuration then maxDuration
  else if now - t < minDuration then minDuration
  else now - t

/-- The library method `Duration.Hours`: whole hours plus the remaining
nanoseconds as a fraction of an hour. -/
def durationHours (d : Int) : ℚ :=
  ((d.tdiv 3600000000000 : Int) : ℚ) + ((d.tmod 3600000000000 : Int) : ℚ) / 3600000000000

/-! ## Models -/

/-- The struct `Link`. -/
structure Link where
  ID : String
  URL : String
  Title : String
  Comment : String
  Tags : List String
  Labels : List (String × String)
  OpenCount : Int
  LastOpened : Int
  deriving DecidableEq

/-- The struct `Store`. -/
structure Store where
  Links : List Link
  deriving DecidableEq

/-- The anonymous struct held by the field `Weights` of `Weights`. -/
structure WeightFields where
  Tag : ℚ
  Label : ℚ
  Title : ℚ
  Comment : ℚ
  Popularity : ℚ
  Recency : ℚ
  deriving DecidableEq

/-- The struct `Weights`. -/
structure Weights where
  Weights : WeightFields
  deriving DecidableEq

/-- A run-time panic: an index expression `a[index]` on a slice of length `len`
with `index` out of range. -/
inductive RuntimeError where
  | indexOutOfRange (index len : Nat)
  deriving DecidableEq

/-! ## Scoring -/

/-- The helper `contains(xs, s)`: some element of `xs`, lowercased, is `s`. -/
def contains (toLower : String → String) : List String → String → Bool
  | [], _ => false
  | x :: xs, s => if toLower x = s then true else contains toLower xs s

/-- The inner loop of `scoreLink` over the labels of the link, for the
lowercased term `t`: every pair whose key, value or `key=value` is `t` adds
the label weight to the running score. -/
def labelLoop (labels : List (String × String)) (w : Weights) (t : String) (score : ℚ) : ℚ :=
  labels.foldl
    (fun score kv =>
      if t = kv.1 ∨ t = kv.2 ∨ t = kv.1 ++ "=" ++ kv.2 then score + w.Weights.Label
      else score)
    score

/-- The body of the loop of `scoreLink` over the terms: the running score
after the term `term`. -/
def termLoopBody (toLower : String → String) (l : Link) (w : Weights)
    (title comment : String) (score : ℚ) (term : String) : ℚ :=
  let t := toLower term
  let score := if contains toLower l.Tags t then score + w.Weights.Tag else score
  let score := labelLoop l.Labels w t score
  let score := if stringsContains title t then score + w.Weights.Title else score
  let score := if stringsContains comment t then score + w.Weights.Comment else score
  score

/-- The function `scoreLink(l, w, terms)`, with the lowercasing function and
the instant read by `time.Since` as parameters. -/
def scoreLink (toLower : String → String) (now : Int) (l : Link) (w : Weights)
    (terms : List String) : ℚ :=
  let score : ℚ := 0
  let title := toLower l.Title
  let comment := toLower l.Comment
  let score := terms.foldl (termLoopBody toLower l w title comment) score
  let score := score + (l.OpenCount : ℚ) * w.Weights.Popularity
  let score :=
    if l.LastOpened ≠ 0 then
      let days := durationHours (timeSince now l.LastOpened) / 24
      score + w.Weights.Recency / (days + 1)
    else score
  score

/-! ## The add path -/

/-- The local variables `title`, `comment`, `tags`, `labels` of `handleAdd`. -/
structure AddFlags where
  title : String
  comment : String
  tags : List String
  labels : List String
  deriving DecidableEq

/-- The flag loop of `handleAdd`, `for i := 3; i < len(os.Args); i++`, as a
recursion on the arguments from index `i` on (`rest` is `os.Args[i:]`, `len`
is `len(os.Args)`). A flag steps `i` once more and reads `os.Args[i]`; when
that index is `len(os.Args)` the read panics. -/
def flagLoop (len : Nat) : List String → Nat → AddFlags → Except RuntimeError AddFlags
  | [], _, st => .ok st
  | [a], i, st =>
    if a = "--title" ∨ a = "--comment" ∨ a = "--tag" ∨ a = "--label" then
      .error (.indexOutOfRange (i + 1) len)
    else .ok st
  | a :: v :: rest, i, st =>
    if a = "--title" then flagLoop len rest (i + 2) { st with title := v }
    else if a = "--comment" then flagLoop len rest (i + 2) { st with comment := v }
    else if a = "--tag" then flagLoop len rest (i + 2) { st with tags := st.tags ++ [v] }
    else if a = "--label" then flagLoop len rest (i + 2) { st with labels := st.labels ++ [v] }
    else flagLoop len (v :: rest) (i + 1) st

/-- The map assignment `m[k] = v`. -/
def mapSet : List (String × String) → String → String → List (String × String)
  | [], k, v => [(k, v)]
  | (k', v') :: m, k, v => if k' = k then (k, v) :: m else (k', v') :: mapSet m k v

/-- The function `parseLabels(vals)`. -/
def parseLabels (vals : List String) : List (String × String) :=
  vals.foldl
    (fun m v =>
      match splitEq2 v with
      | [k, x] => mapSet m k x
      | _ => m)
    []

/-- The link `handleAdd` builds from the url and the parsed flags; `unixNano`
is `time.Now().UnixNano()`. -/
def newLink (unixNano : Int) (url : String) (st : AddFlags) : Link :=
  { ID := toString unixNano
    URL := url
    Title := st.title
    Comment := st.comment
    Tags := st.tags
    Labels := parseLabels st.labels
    OpenCount := 0
    LastOpened := 0 }

/-- The function `handleAdd()`: `args` is `os.Args`, `store` the store read by
`loadJSON`; the result is the store written by `saveJSON` (with fewer than
three arguments the usage line is printed and the store is left as it is), or
the panic of the flag loop. -/
def handleAdd (args : List String) (unixNano : Int) (store : Store) :
    Except RuntimeError Store :=
  if args.length < 3 then .ok store
  else
    let url := args.getD 2 ""
    match flagLoop args.length (args.drop 3) 3 ⟨"", "", [], []⟩ with
    | .error e => .error e
    | .ok st => .ok { Links := store.Links ++ [newLink unixNano url st] }

/-! ## Ranking -/

/-- The local struct `scored` of `main`: a link with its score. -/
structure scored where
  Link : Link
  Score : ℚ
  deriving DecidableEq

/-- The weights `main` is run with. -/
def defaultWeights : Weights := ⟨⟨2, 3 / 2, 3, 1, 1 / 20, 1 / 50⟩⟩

/-- The loop of `main` that builds `results`. -/
def rankLoop (toLower : String → String) (now : Int) (links : List Link) (w : Weights)
    (terms : List String) : List scored :=
  links.foldl
    (fun results l =>
      let score := scoreLink toLower now l w terms
      if terms.length = 0 ∨ score > 0 then results ++ [⟨l, score⟩] else results)
    []

/-- The library call `sort.Slice(xs, less)`, as an insertion sort: `a` goes
before `b` unless `less b a`. The library does not fix the order of elements
that `less` does not separate, and no theorem below depends on it. -/
def sortSlice {α : Type} (less : α → α → Bool) (xs : List α) : List α :=
  xs.insertionSort (fun a b => ¬ less b a = true)

/-- The ranked results of `main`: the loop over the store, then the sort by
`results[i].Score > results[j].Score`. -/
def rank (toLower : String → String) (now : Int) (store : Store) (w : Weights)
    (terms : List String) : List scored :=
  sortSlice (fun a b => decide (a.Score > b.Score)) (rankLoop toLower now store.Links w terms)

/-! ## The reference score

The score as the specification words it, term by term, to be compared with
`scoreLink`. -/

/-- What one term contributes, in the words of the specification: the tag
weight if some tag, lowercased, is the lowercased term; the label weight once
for each label pair whose key, value or `key=value` is the lowercased term;
the title weight if the lowercased term is a substring of the lowercased
title; the comment weight likewise. -/
def termRef (toLower : String → String) (l : Link) (w : Weights) (term : String) : ℚ :=
  (if ∃ tag ∈ l.Tags, toLower tag = toLower term then w.Weights.Tag else 0)
  + w.Weights.Label *
      ((l.Labels.filter (fun kv =>
          decide (toLower term = kv.1 ∨ toLower term = kv.2
            ∨ toLower term = kv.1 ++ "=" ++ kv.2))).length : ℚ)
  + (if (toLower term).data <:+: (toLower l.Title).data then w.Weights.Title else 0)
  + (if (toLower term).data <:+: (toLower l.Comment).data then w.Weights.Comment else 0)

/-- The recency contribution, in the words of the specification: nothing for
a link never opened, otherwise the recency weight over the days since it was
opened plus one (the days are the duration `time.Since` returns over a day of
86400000000000 nanoseconds). -/
def recencyRef (now : Int) (l : Link) (w : Weights) : ℚ :=
  if l.LastOpened = 0 then 0
  else w.Weights.Recency / (((timeSince now l.LastOpened : Int) : ℚ) / 86400000000000 + 1)

/-- The reference score: the contributions of the terms, the popularity
contribution once and the recency contribution once. -/
def scoreRef (toLower : String → String) (now : Int) (l : Link) (w : Weights)
    (terms : List String) : ℚ :=
  (terms.map (termRef toLower l w)).sum
  + (l.OpenCount : ℚ) * w.Weights.Popularity
  + recencyRef now l w

/-- The weights `w` with the recency weight set to 0: under them the recency
step of `scoreLink` adds nothing, so the score is the score before that step. -/
def withoutRecency (w : Weights) : Weights :=
  { w with Weights := { w.Weights with Recency := 0 } }

/-! ## Concrete inputs -/

/-- A link last opened at day 738000 after the zero instant. -/
def openedLink : Link :=
  { ID := "6", URL := "https://example.com/e", Title := "Notes", Comment := "",
    Tags := ["go"], Labels := [], OpenCount := 2, LastOpened := 738000 * 86400000000000 }

/-- A link never opened since 1 January 1700, day 620547 after the zero
instant, with no text and no opens: its score is its recency contribution. -/
def oldLink : Link :=
  { ID := "7", URL := "https://example.com/f", Title := "", Comment := "",
    Tags := [], Labels := [], OpenCount := 0, LastOpened := 620547 * 86400000000000 }

/-- The link of the specification's scenario: tags go and cli, title Go Blog,
no comment, opened ten times, last opened never. -/
def goBlog : Link :=
  { ID := "1", URL := "https://go.dev/blog", Title := "Go Blog", Comment := "",
    Tags := ["go", "cli"], Labels := [], OpenCount := 10, LastOpened := 0 }

/-- A link whose one label has the key Env, with a capital letter. -/
def upperEnv : Link :=
  { ID := "2", URL := "https://example.com/a", Title := "", Comment := "",
    Tags := [], Labels := [("Env", "prod")], OpenCount := 0, LastOpened := 0 }

/-- A link whose one label has the key env, in lowercase. -/
def lowerEnv : Link :=
  { ID := "3", URL := "https://example.com/b", Title := "", Comment := "",
    Tags := [], Labels := [("env", "prod")], OpenCount := 0, LastOpened := 0 }

/-- A link with a non-empty tag and one label, parsed from the argument
`=prod`: its key is empty and its value is not. -/
def emptyKey : Link :=
  { ID := "4", URL := "https://example.com/c", Title := "Docs", Comment := "",
    Tags := ["cli"], Labels := parseLabels ["=prod"], OpenCount := 0, LastOpened := 0 }

/-- A link with a title in capitals, a mixed-case tag and a comment. -/
def mixedCase : Link :=
  { ID := "5", URL := "https://example.com/d", Title := "GO Blog", Comment := "Read Me",
    Tags := ["Go", "CLI"], Labels := [("env", "prod")], OpenCount := 3, LastOpened := 0 }

/-! ## Library facts -/

theorem toLower_toLower (c : Char) : c.toLower.toLower = c.toLower := by
  by_cases h : c.toNat ≥ 65 ∧ c.toNat ≤ 90
  · have h1 : c.toLower = Char.ofNat (c.toNat + 32) := by
      unfold Char.toLower
      simp only [h, and_self, if_true]
    rw [h1]
    obtain ⟨hlo, hhi⟩ := h
    generalize c.toNat = n at hlo hhi
    interval_cases n <;> decide
  · have h1 : c.toLower = c := by
      unfold Char.toLower
      simp only [h, if_false]
    rw [h1, h1]

theorem asciiLower_idem (s : String) : asciiLower (asciiLower s) = asciiLower s := by
  unfold asciiLower
  simp only [List.map_map]
  congr 1
  apply List.map_congr_left
  intro c _
  exact toLower_toLower c

theorem asciiLower_eq_empty (s : String) : asciiLower s = "" ↔ s = "" := by
  unfold asciiLower
  constructor
  · intro h
    have h2 : s.data.map Char.toLower = [] := congrArg String.data h
    have h3 : s.data = [] := List.map_eq_nil_iff.mp h2
    exact String.ext h3
  · rintro rfl
    rfl


theorem startsWith_iff (s p : List Char) : startsWith s p = true ↔ p <+: s := by
  induction s generalizing p with
  | nil => cases p <;> simp [startsWith]
  | cons c s ih =>
    cases p with
    | nil => simp [startsWith]
    | cons d p =>
      simp only [startsWith, Bool.and_eq_true, beq_iff_eq, ih, List.cons_prefix_cons]
      constructor
      · rintro ⟨h, h2⟩; exact ⟨h.symm, h2⟩
      · rintro ⟨h, h2⟩; exact ⟨h.symm, h2⟩

theorem occursIn_iff (s sub : List Char) : occursIn s sub = true ↔ sub <:+: s := by
  induction s with
  | nil => simp [occursIn, startsWith_iff]
  | cons c s ih =>
    simp only [occursIn, Bool.or_eq_true, startsWith_iff, ih, List.infix_cons_iff]

theorem stringsContains_iff (s sub : String) :
    stringsContains s sub = true ↔ sub.data <:+: s.data :=
  occursIn_iff s.data sub.data

theorem durationHours_eq (d : Int) : durationHours d = (d : ℚ) / 3600000000000 := by
  unfold durationHours
  have h := Int.tmod_add_tdiv d 3600000000000
  have h2 : ((d.tmod 3600000000000 : Int) : ℚ)
      + 3600000000000 * ((d.tdiv 3600000000000 : Int) : ℚ) = (d : ℚ) := by
    exact_mod_cast h
  rw [← h2]
  field_simp
  ring

/-! ## The score as a sum -/

theorem contains_iff (toLower : String → String) (xs : List String) (s : String) :
    contains toLower xs s = true ↔ ∃ x ∈ xs, toLower x = s := by
  induction xs with
  | nil => simp [contains]
  | cons x xs ih =>
    by_cases h : toLower x = s
    · simp [contains, h]
    · simp [contains, h, ih]

theorem labelLoop_eq (labels : List (String × String)) (w : Weights) (t : String) (score : ℚ) :
    labelLoop labels w t score
      = score + w.Weights.Label *
          ((labels.filter (fun kv =>
              decide (t = kv.1 ∨ t = kv.2 ∨ t = kv.1 ++ "=" ++ kv.2))).length : ℚ) := by
  unfold labelLoop
  induction labels generalizing score with
  | nil => simp
  | cons kv labels ih =>
    rw [List.foldl_cons, ih]
    by_cases h : t = kv.1 ∨ t = kv.2 ∨ t = kv.1 ++ "=" ++ kv.2
    · rw [if_pos h, List.filter_cons_of_pos (by simpa using h)]
      push_cast [List.length_cons]
      ring
    · rw [if_neg h, List.filter_cons_of_neg (by simpa using h)]

theorem termLoopBody_eq (toLower : String → String) (l : Link) (w : Weights) (score : ℚ)
    (term : String) :
    termLoopBody toLower l w (toLower l.Title) (toLower l.Comment) score term
      = score + termRef toLower l w term := by
  unfold termLoopBody termRef
  simp only [labelLoop_eq]
  have hc : ∀ s : String, (stringsContains s (toLower term) = true)
      = ((toLower term).data <:+: s.data) := fun s => propext (stringsContains_iff s _)
  have ht : (contains toLower l.Tags (toLower term) = true)
      = (∃ tag ∈ l.Tags, toLower tag = toLower term) := propext (contains_iff _ _ _)
  simp only [hc, ht]
  split_ifs <;> ring

theorem foldl_termLoopBody (toLower : String → String) (l : Link) (w : Weights)
    (terms : List String) (score : ℚ) :
    terms.foldl (termLoopBody toLower l w (toLower l.Title) (toLower l.Comment)) score
      = score + (terms.map (termRef toLower l w)).sum := by
  induction terms generalizing score with
  | nil => simp
  | cons term terms ih =>
    rw [List.foldl_cons, ih, termLoopBody_eq, List.map_cons, List.sum_cons]
    ring

theorem scoreLink_sum (toLower : String → String) (now : Int) (l : Link) (w : Weights)
    (terms : List String) :
    scoreLink toLower now l w terms
      = (terms.map (termRef toLower l w)).sum
        + (l.OpenCount : ℚ) * w.Weights.Popularity + recencyRef now l w := by
  have hd : ∀ x : ℚ, x / 3600000000000 / 24 = x / 86400000000000 := fun x => by
    rw [div_div]; norm_num
  unfold scoreLink recencyRef
  simp only [foldl_termLoopBody, durationHours_eq, hd, zero_add]
  by_cases h : l.LastOpened = 0
  · simp [h]
  · simp only [h, ne_eq, not_false_eq_true, if_true, if_false]

theorem termRef_congr (toLower : String → String) (l l' : Link) (w : Weights)
    (term term' : String) (hterm : toLower term = toLower term')
    (htags : l.Tags.map toLower = l'.Tags.map toLower)
    (htitle : toLower l.Title = toLower l'.Title)
    (hcomment : toLower l.Comment = toLower l'.Comment)
    (hlabels : l.Labels = l'.Labels) :
    termRef toLower l w term = termRef toLower l' w term' := by
  have hex : ∀ (tags : List String) (t : String),
      (∃ tag ∈ tags, toLower tag = t) ↔ t ∈ tags.map toLower := by
    intro tags t
    simp [List.mem_map]
  unfold termRef
  simp only [hex, htags, hterm, htitle, hcomment, hlabels]

theorem sum_termRef_congr (toLower : String → String) (l l' : Link) (w : Weights)
    (htags : l.Tags.map toLower = l'.Tags.map toLower)
    (htitle : toLower l.Title = toLower l'.Title)
    (hcomment : toLower l.Comment = toLower l'.Comment)
    (hlabels : l.Labels = l'.Labels) (terms terms' : List String)
    (hterms : terms.map toLower = terms'.map toLower) :
    (terms.map (termRef toLower l w)).sum = (terms'.map (termRef toLower l' w)).sum := by
  induction terms generalizing terms' with
  | nil =>
    cases terms' with
    | nil => rfl
    | cons b bs => simp at hterms
  | cons a as ih =>
    cases terms' with
    | nil => simp at hterms
    | cons b bs =>
      simp only [List.map_cons, List.cons.injEq] at hterms
      rw [List.map_cons, List.map_cons, List.sum_cons, List.sum_cons, ih bs hterms.2,
        termRef_congr toLower l l' w a b hterms.1 htags htitle hcomment hlabels]

theorem scoreLink_congr (toLower : String → String) (now : Int) (l l' : Link) (w : Weights)
    (terms terms' : List String)
    (hterms : terms.map toLower = terms'.map toLower)
    (htags : l.Tags.map toLower = l'.Tags.map toLower)
    (htitle : toLower l.Title = toLower l'.Title)
    (hcomment : toLower l.Comment = toLower l'.Comment)
    (hlabels : l.Labels = l'.Labels) (hcount : l.OpenCount = l'.OpenCount)
    (hlast : l.LastOpened = l'.LastOpened) :
    scoreLink toLower now l w terms = scoreLink toLower now l' w terms' := by
  rw [scoreLink_sum, scoreLink_sum,
    sum_termRef_congr toLower l l' w htags htitle hcomment hlabels terms terms' hterms]
  unfold recencyRef
  rw [hcount, hlast]

theorem append_eq_ne_empty (k v : String) : "" ≠ k ++ "=" ++ v := by
  intro h
  have h2 := congrArg String.length h
  have h3 : "=".length = 1 := rfl
  have h4 : "".length = 0 := rfl
  rw [String.length_append, String.length_append, h3, h4] at h2
  omega

theorem termRef_label (toLower : String → String) (l : Link) (w : Weights)
    (pre post : List (String × String)) (k v term : String) :
    termRef toLower { l with Labels := pre ++ (k, v) :: post } w term
      = termRef toLower { l with Labels := pre ++ post } w term
        + (if toLower term = k ∨ toLower term = v ∨ toLower term = k ++ "=" ++ v
            then w.Weights.Label else 0) := by
  unfold termRef
  simp only [List.filter_append, List.length_append]
  by_cases h : toLower term = k ∨ toLower term = v ∨ toLower term = k ++ "=" ++ v
  · rw [if_pos h, List.filter_cons_of_pos (by simpa using h)]
    push_cast [List.length_cons]
    ring
  · rw [if_neg h, List.filter_cons_of_neg (by simpa using h)]
    push_cast
    ring

theorem termRef_empty (toLower : String → String) (hempty : ∀ s, toLower s = "" ↔ s = "")
    (l : Link) (w : Weights) :
    termRef toLower l w ""
      = w.Weights.Title + w.Weights.Comment
        + (if "" ∈ l.Tags then w.Weights.Tag else 0)
        + w.Weights.Label *
            ((l.Labels.filter (fun kv => decide (kv.1 = "" ∨ kv.2 = ""))).length : ℚ) := by
  have h0 : toLower "" = "" := (hempty "").2 rfl
  have htag : (∃ tag ∈ l.Tags, toLower tag = "") ↔ "" ∈ l.Tags := by
    constructor
    · rintro ⟨tag, hmem, htag⟩
      rw [(hempty tag).1 htag] at hmem
      exact hmem
    · intro hmem
      exact ⟨"", hmem, h0⟩
  have hfilter : (fun kv : String × String =>
        decide ("" = kv.1 ∨ "" = kv.2 ∨ "" = kv.1 ++ "=" ++ kv.2))
      = (fun kv => decide (kv.1 = "" ∨ kv.2 = "")) := by
    funext kv
    have h3 := append_eq_ne_empty kv.1 kv.2
    simp only [h3, or_false, eq_comm]
  have hnil : ("" : String).data = [] := rfl
  unfold termRef
  simp only [h0, htag, hfilter, hnil, List.nil_infix, if_true]
  ring

theorem timeSince_of_fits (now t : Int) (hlo : minDuration ≤ now - t)
    (hhi : now - t ≤ maxDuration) : timeSince now t = now - t := by
  unfold timeSince
  rw [if_neg (by omega), if_neg (by omega)]

theorem timeSince_above (now t : Int) (h : maxDuration < now - t) :
    timeSince now t = maxDuration := by
  unfold timeSince
  rw [if_pos (by omega)]

theorem timeSince_below (now t : Int) (h : now - t < minDuration) :
    timeSince now t = minDuration := by
  have hb : minDuration ≤ maxDuration := by decide
  unfold timeSince
  rw [if_neg (by omega), if_pos h]

theorem timeSince_mono (now₁ t₁ now₂ t₂ : Int) (h : now₁ - t₁ ≤ now₂ - t₂) :
    timeSince now₁ t₁ ≤ timeSince now₂ t₂ := by
  have hb : minDuration ≤ maxDuration := by decide
  unfold timeSince
  split_ifs <;> omega

theorem timeSince_nonneg (now t : Int) (h : t ≤ now) : 0 ≤ timeSince now t := by
  have hlo : minDuration ≤ 0 := by decide
  have hhi : 0 ≤ maxDuration := by decide
  unfold timeSince
  split_ifs <;> omega

theorem scoreLink_withoutRecency (toLower : String → String) (now : Int) (l : Link)
    (w : Weights) (terms : List String) :
    scoreLink toLower now l w terms
      = scoreLink toLower now l (withoutRecency w) terms + recencyRef now l w := by
  have hterm : termRef toLower l (withoutRecency w) = termRef toLower l w := by
    funext term
    rfl
  have hrec : recencyRef now l (withoutRecency w) = 0 := by
    unfold recencyRef withoutRecency
    simp
  rw [scoreLink_sum, scoreLink_sum, hterm, hrec]
  simp [withoutRecency]

/-! ## The ranking loop and the sort -/

theorem rankLoop_foldl (toLower : String → String) (now : Int) (w : Weights)
    (terms : List String) (links : List Link) (acc : List scored) :
    links.foldl
        (fun results l =>
          if terms.length = 0 ∨ scoreLink toLower now l w terms > 0
            then results ++ [(⟨l, scoreLink toLower now l w terms⟩ : scored)] else results)
        acc
      = acc ++ (links.filter
            (fun l => decide (terms = [] ∨ scoreLink toLower now l w terms > 0))).map
          (fun l => (⟨l, scoreLink toLower now l w terms⟩ : scored)) := by
  induction links generalizing acc with
  | nil => simp
  | cons l links ih =>
    rw [List.foldl_cons, ih]
    by_cases h : terms = [] ∨ scoreLink toLower now l w terms > 0
    · have h2 : terms.length = 0 ∨ scoreLink toLower now l w terms > 0 := by
        simpa [List.length_eq_zero] using h
      rw [if_pos h2, List.filter_cons_of_pos (by simpa using h)]
      simp
    · have h2 : ¬ (terms.length = 0 ∨ scoreLink toLower now l w terms > 0) := by
        simpa [List.length_eq_zero] using h
      rw [if_neg h2, List.filter_cons_of_neg (by simpa using h)]

theorem rankLoop_eq (toLower : String → String) (now : Int) (links : List Link) (w : Weights)
    (terms : List String) :
    rankLoop toLower now links w terms
      = (links.filter (fun l => decide (terms = [] ∨ scoreLink toLower now l w terms > 0))).map
          (fun l => (⟨l, scoreLink toLower now l w terms⟩ : scored)) := by
  unfold rankLoop
  rw [rankLoop_foldl]
  simp

theorem sortSlice_perm {α : Type} (less : α → α → Bool) (xs : List α) :
    (sortSlice less xs).Perm xs :=
  List.perm_insertionSort _ xs

theorem sortSlice_score_sorted (xs : List scored) :
    List.Sorted (fun a b : scored => a.Score ≥ b.Score)
      (sortSlice (fun a b => decide (a.Score > b.Score)) xs) := by
  unfold sortSlice
  haveI : IsTotal scored (fun a b => ¬ decide (b.Score > a.Score) = true) :=
    ⟨fun a b => by
      simp only [decide_eq_true_eq, not_lt, gt_iff_lt]
      exact le_total _ _⟩
  haveI : IsTrans scored (fun a b => ¬ decide (b.Score > a.Score) = true) :=
    ⟨fun a b c hab hbc => by
      simp only [decide_eq_true_eq, not_lt, gt_iff_lt] at hab hbc ⊢
      exact le_trans hbc hab⟩
  have h := List.sorted_insertionSort
    (fun a b : scored => ¬ decide (b.Score > a.Score) = true) xs
  refine List.Pairwise.imp ?_ h
  intro a b hab
  simpa using hab

theorem rank_perm (toLower : String → String) (now : Int) (store : Store) (w : Weights)
    (terms : List String) :
    (rank toLower now store w terms).Perm
      ((store.Links.filter
          (fun l => decide (terms = [] ∨ scoreLink toLower now l w terms > 0))).map
        (fun l => (⟨l, scoreLink toLower now l w terms⟩ : scored))) := by
  unfold rank
  rw [← rankLoop_eq]
  exact sortSlice_perm _ _

/-! ## The flag loop -/

theorem flagLoop_tags (len : Nat) (n : Nat) :
    ∀ (rest : List String) (i : Nat) (st st' : AddFlags), rest.length ≤ n →
      flagLoop len rest i st = .ok st' →
      ∀ tag ∈ st'.tags,
        tag ∈ st.tags ∨ ∃ j, rest[j]? = some "--tag" ∧ rest[j + 1]? = some tag := by
  induction n using Nat.strong_induction_on with
  | _ n ih =>
    intro rest i st st' hn hrun tag htag
    match rest, hn, hrun with
    | [], _, hrun =>
      simp only [flagLoop, Except.ok.injEq] at hrun
      subst hrun
      exact Or.inl htag
    | [a], _, hrun =>
      simp only [flagLoop] at hrun
      split_ifs at hrun
      simp only [Except.ok.injEq] at hrun
      subst hrun
      exact Or.inl htag
    | a :: v :: rest, hn, hrun =>
      simp only [List.length_cons] at hn
      simp only [flagLoop] at hrun
      have hshift :
          (∃ j, rest[j]? = some "--tag" ∧ rest[j + 1]? = some tag) →
          ∃ j, (a :: v :: rest)[j]? = some "--tag" ∧ (a :: v :: rest)[j + 1]? = some tag := by
        rintro ⟨j, h1, h2⟩
        exact ⟨j + 2, by simpa using h1, by simpa using h2⟩
      split_ifs at hrun with h1 h2 h3 h4
      · rcases ih (n - 2) (by omega) rest (i + 2) _ st' (by omega) hrun tag htag with h | h
        · exact Or.inl h
        · exact Or.inr (hshift h)
      · rcases ih (n - 2) (by omega) rest (i + 2) _ st' (by omega) hrun tag htag with h | h
        · exact Or.inl h
        · exact Or.inr (hshift h)
      · rcases ih (n - 2) (by omega) rest (i + 2) _ st' (by omega) hrun tag htag with h | h
        · simp only [List.mem_append, List.mem_singleton] at h
          rcases h with h | h
          · exact Or.inl h
          · refine Or.inr ⟨0, ?_, ?_⟩
            · simp [h3]
            · simp [h]
        · exact Or.inr (hshift h)
      · rcases ih (n - 2) (by omega) rest (i + 2) _ st' (by omega) hrun tag htag with h | h
        · exact Or.inl h
        · exact Or.inr (hshift h)
      · rcases ih (n - 1) (by omega) (v :: rest) (i + 1) st st' (by simp; omega) hrun tag htag
          with h | h
        · exact Or.inl h
        · obtain ⟨j, h5, h6⟩ := h
          exact Or.inr ⟨j + 1, by simpa using h5, by simpa using h6⟩

theorem flagLoop_error (len : Nat) (n : Nat) :
    ∀ (rest : List String) (i : Nat) (st : AddFlags) (e : RuntimeError), rest.length ≤ n →
      flagLoop len rest i st = .error e →
      e = .indexOutOfRange (i + rest.length) len := by
  induction n using Nat.strong_induction_on with
  | _ n ih =>
    intro rest i st e hn hrun
    match rest, hn, hrun with
    | [], _, hrun =>
      simp only [flagLoop] at hrun
      cases hrun
    | [a], _, hrun =>
      simp only [flagLoop] at hrun
      split_ifs at hrun
      simp only [Except.error.injEq] at hrun
      rw [← hrun, List.length_singleton]
    | a :: v :: rest, hn, hrun =>
      simp only [List.length_cons] at hn
      simp only [flagLoop] at hrun
      have hlen : i + (a :: v :: rest).length = i + 2 + rest.length := by
        simp only [List.length_cons]
        omega
      have hlen1 : i + (a :: v :: rest).length = i + 1 + (v :: rest).length := by
        simp only [List.length_cons]
        omega
      split_ifs at hrun
      · rw [hlen]; exact ih (n - 2) (by omega) rest (i + 2) _ e (by omega) hrun
      · rw [hlen]; exact ih (n - 2) (by omega) rest (i + 2) _ e (by omega) hrun
      · rw [hlen]; exact ih (n - 2) (by omega) rest (i + 2) _ e (by omega) hrun
      · rw [hlen]; exact ih (n - 2) (by omega) rest (i + 2) _ e (by omega) hrun
      · rw [hlen1]
        exact ih (n - 1) (by omega) (v :: rest) (i + 1) st e (by simp; omega) hrun

/-! ## C3: the score is the reference sum -/

/-- C3: for every link, weights and term list, `scoreLink` is the reference
sum of the specification in exact arithmetic: per term the tag weight once if
some lowercased tag is the lowercased term, the label weight once per matching
label pair, the title and comment weights on a substring match, then the
popularity and recency contributions once. The scenario link scores 5.5 for
the term go and 0.5 for no terms under the default weights. -/
theorem scoreLink_eq_scoreRef :
    (∀ (toLower : String → String) (now : Int) (l : Link) (w : Weights) (terms : List String),
        scoreLink toLower now l w terms = scoreRef toLower now l w terms)
    ∧ (∀ now : Int, scoreLink asciiLower now goBlog defaultWeights ["go"] = 11 / 2)
    ∧ (∀ now : Int, scoreLink asciiLower now goBlog defaultWeights [] = 1 / 2) := by
  refine ⟨fun toLower now l w terms => ?_, fun now => ?_, fun now => ?_⟩
  · rw [scoreLink_sum, scoreRef]
  · have h1 : contains asciiLower goBlog.Tags (asciiLower "go") = true := by decide
    have h2 : stringsContains (asciiLower goBlog.Title) (asciiLower "go") = true := by decide
    have h3 : stringsContains (asciiLower goBlog.Comment) (asciiLower "go") = false := by decide
    have h4 : goBlog.Labels = [] := rfl
    have h5 : goBlog.LastOpened = 0 := rfl
    have h6 : goBlog.OpenCount = 10 := rfl
    simp only [scoreLink, termLoopBody, labelLoop, List.foldl_cons, List.foldl_nil, h1, h2, h3,
      h4, h5, h6, if_true, ne_eq, not_true_eq_false, if_false, defaultWeights]
    norm_num
  · have h5 : goBlog.LastOpened = 0 := rfl
    have h6 : goBlog.OpenCount = 10 := rfl
    simp only [scoreLink, List.foldl_nil, h5, h6, ne_eq, not_true_eq_false, if_false,
      defaultWeights]
    norm_num

/-! ## C7: terms are scored independently and additively -/

/-- C7: for every link, weights and term lists `xs` and `ys`, the score of
`xs ++ ys` is the score of `xs` plus the score of `ys` minus the score of no
terms, in exact arithmetic; and two term lists that are permutations of each
other give the same score. -/
theorem scoreLink_additive (toLower : String → String) (now : Int) (l : Link) (w : Weights) :
    (∀ xs ys : List String,
        scoreLink toLower now l w (xs ++ ys)
          = scoreLink toLower now l w xs + scoreLink toLower now l w ys
            - scoreLink toLower now l w [])
    ∧ (∀ xs ys : List String, xs.Perm ys →
        scoreLink toLower now l w xs = scoreLink toLower now l w ys) := by
  constructor
  · intro xs ys
    simp only [scoreLink_sum, List.map_append, List.sum_append, List.map_nil, List.sum_nil]
    ring
  · intro xs ys h
    simp only [scoreLink_sum]
    rw [(h.map (termRef toLower l w)).sum_eq]

/-! ## C5: tags, title and comment are matched without regard to case -/

/-- C5: for a lowercasing function that leaves lowercased strings as they
are, replacing the terms, the tags, the title and the comment of a link by
their lowercase forms leaves the score unchanged; and so does replacing them
by any strings with the same lowercase forms, all other fields being equal. -/
theorem scoreLink_case_insensitive (toLower : String → String) (now : Int) (l : Link)
    (w : Weights) (terms : List String) :
    ((∀ s, toLower (toLower s) = toLower s) →
      scoreLink toLower now
          { l with Tags := l.Tags.map toLower, Title := toLower l.Title,
                   Comment := toLower l.Comment } w (terms.map toLower)
        = scoreLink toLower now l w terms)
    ∧ ∀ (l' : Link) (terms' : List String),
        terms'.map toLower = terms.map toLower →
        l'.Tags.map toLower = l.Tags.map toLower →
        toLower l'.Title = toLower l.Title →
        toLower l'.Comment = toLower l.Comment →
        l'.Labels = l.Labels → l'.OpenCount = l.OpenCount → l'.LastOpened = l.LastOpened →
        scoreLink toLower now l' w terms' = scoreLink toLower now l w terms := by
  constructor
  · intro hidem
    have hmap : ∀ xs : List String, (xs.map toLower).map toLower = xs.map toLower := by
      intro xs
      rw [List.map_map]
      apply List.map_congr_left
      intro x _
      exact hidem x
    exact scoreLink_congr toLower now _ l w _ terms (hmap terms) (hmap l.Tags)
      (hidem _) (hidem _) rfl rfl rfl
  · intro l' terms' h1 h2 h3 h4 h5 h6 h7
    exact scoreLink_congr toLower now l' l w terms' terms h1 h2 h3 h4 h5 h6 h7

/-- The lowercased twin of a mixed-case link gets the same score for the
lowercased term as the link gets for the term in capitals. -/
theorem scoreLink_case_insensitive_witness :
    scoreLink asciiLower 7
        { mixedCase with Tags := mixedCase.Tags.map asciiLower,
                         Title := asciiLower mixedCase.Title,
                         Comment := asciiLower mixedCase.Comment }
        defaultWeights (["GO", "read"].map asciiLower)
      = scoreLink asciiLower 7 mixedCase defaultWeights ["GO", "read"] :=
  (scoreLink_case_insensitive asciiLower 7 mixedCase defaultWeights ["GO", "read"]).1
    asciiLower_idem

/-! ## C4: labels are matched against the lowercased term -/

/-- C4, as the code has it: a label pair `(k, v)` of a link adds the label
weight for a term exactly when the lowercased term is equal, character for
character, to the key, to the value or to `k=v` as stored; the stored label
text is not lowercased. The first part is the score of a single term with and
without the pair among the labels, the second the same for a list of terms. -/
theorem label_match_lowercased_term (toLower : String → String) (now : Int) (l : Link)
    (w : Weights) (pre post : List (String × String)) (k v : String) :
    (∀ term : String,
        scoreLink toLower now { l with Labels := pre ++ (k, v) :: post } w [term]
          = scoreLink toLower now { l with Labels := pre ++ post } w [term]
            + (if toLower term = k ∨ toLower term = v ∨ toLower term = k ++ "=" ++ v
                then w.Weights.Label else 0))
    ∧ (∀ terms : List String,
        scoreLink toLower now { l with Labels := pre ++ (k, v) :: post } w terms
          = scoreLink toLower now { l with Labels := pre ++ post } w terms
            + w.Weights.Label *
                ((terms.filter (fun term =>
                    decide (toLower term = k ∨ toLower term = v
                      ∨ toLower term = k ++ "=" ++ v))).length : ℚ)) := by
  have hlist : ∀ terms : List String,
      scoreLink toLower now { l with Labels := pre ++ (k, v) :: post } w terms
        = scoreLink toLower now { l with Labels := pre ++ post } w terms
          + w.Weights.Label *
              ((terms.filter (fun term =>
                  decide (toLower term = k ∨ toLower term = v
                    ∨ toLower term = k ++ "=" ++ v))).length : ℚ) := by
    intro terms
    simp only [scoreLink_sum, recencyRef]
    induction terms with
    | nil => simp
    | cons term terms ih =>
      simp only [List.map_cons, List.sum_cons, termRef_label toLower l w pre post k v term]
      by_cases h : toLower term = k ∨ toLower term = v ∨ toLower term = k ++ "=" ++ v
      · rw [if_pos h, List.filter_cons_of_pos (by simpa using h)]
        push_cast [List.length_cons]
        linarith
      · rw [if_neg h, List.filter_cons_of_neg (by simpa using h)]
        linarith
  refine ⟨fun term => ?_, hlist⟩
  rw [hlist [term]]
  by_cases h : toLower term = k ∨ toLower term = v ∨ toLower term = k ++ "=" ++ v
  · rw [if_pos h, List.filter_cons_of_pos (by simpa using h)]
    simp
  · rw [if_neg h, List.filter_cons_of_neg (by simpa using h)]
    simp

/-- The term Env, as typed, is the key of the one label of `upperEnv` and that
label adds nothing to the score (the score is 0, as without terms); it is
neither the key, the value nor the `key=value` of the one label of `lowerEnv`
and that label adds the label weight 1.5 (the score without terms is 0). The
term is compared after lowercasing, as env. -/
theorem label_match_raw_term_counterexample :
    asciiLower "Env" = "env"
    ∧ (upperEnv.Labels = [("Env", "prod")]
      ∧ scoreLink asciiLower 0 upperEnv defaultWeights ["Env"] = 0
      ∧ scoreLink asciiLower 0 upperEnv defaultWeights [] = 0)
    ∧ ("Env" ≠ "env" ∧ "Env" ≠ "prod" ∧ "Env" ≠ "env" ++ "=" ++ "prod"
      ∧ lowerEnv.Labels = [("env", "prod")]
      ∧ scoreLink asciiLower 0 lowerEnv defaultWeights ["Env"] = 3 / 2
      ∧ scoreLink asciiLower 0 lowerEnv defaultWeights [] = 0) := by
  have hl : asciiLower "Env" = "env" := by decide
  have hbase : ∀ l : Link, l.LastOpened = 0 → l.OpenCount = 0 →
      scoreLink asciiLower 0 l defaultWeights [] = 0 := by
    intro l h5 h6
    simp only [scoreLink, List.foldl_nil, h5, h6, ne_eq, not_true_eq_false, if_false]
    norm_num
  refine ⟨hl, ⟨rfl, ?_, hbase _ rfl rfl⟩, by decide, by decide, by decide, rfl, ?_,
    hbase _ rfl rfl⟩
  · have h1 : contains asciiLower upperEnv.Tags "env" = false := by decide
    have h2 : stringsContains (asciiLower upperEnv.Title) "env" = false := by decide
    have h3 : stringsContains (asciiLower upperEnv.Comment) "env" = false := by decide
    have h4 : labelLoop upperEnv.Labels defaultWeights "env" 0 = 0 := by
      have e1 : ¬ (("env" : String) = "Env" ∨ ("env" : String) = "prod"
          ∨ ("env" : String) = "Env" ++ "=" ++ "prod") := by decide
      simp only [labelLoop, upperEnv, List.foldl_cons, List.foldl_nil, e1, if_false]
    have h5 : upperEnv.LastOpened = 0 := rfl
    have h6 : upperEnv.OpenCount = 0 := rfl
    simp only [scoreLink, termLoopBody, List.foldl_cons, List.foldl_nil, hl, h1, h2, h3, h4,
      h5, h6, ne_eq, not_true_eq_false, if_false, Bool.false_eq_true]
    norm_num
  · have h1 : contains asciiLower lowerEnv.Tags "env" = false := by decide
    have h2 : stringsContains (asciiLower lowerEnv.Title) "env" = false := by decide
    have h3 : stringsContains (asciiLower lowerEnv.Comment) "env" = false := by decide
    have h4 : labelLoop lowerEnv.Labels defaultWeights "env" 0 = 3 / 2 := by
      have e1 : (("env" : String) = "env" ∨ ("env" : String) = "prod"
          ∨ ("env" : String) = "env" ++ "=" ++ "prod") := by decide
      simp only [labelLoop, lowerEnv, List.foldl_cons, List.foldl_nil, e1, if_true,
        defaultWeights]
      norm_num
    have h5 : lowerEnv.LastOpened = 0 := rfl
    have h6 : lowerEnv.OpenCount = 0 := rfl
    simp only [scoreLink, termLoopBody, List.foldl_cons, List.foldl_nil, hl, h1, h2, h3, h4,
      h5, h6, ne_eq, not_true_eq_false, if_false, Bool.false_eq_true]
    norm_num

/-! ## C6: the empty term -/

/-- C6, as the code has it: for a lowercasing function that maps exactly the
empty string to the empty string, an empty-string term adds the title weight
and the comment weight, the tag weight if some tag of the link is the empty
string, and the label weight once per label pair whose key or value is the
empty string; so a link whose tags, label keys and label values are all
non-empty gets exactly the title weight plus the comment weight from the
empty term. -/
theorem empty_term_score (toLower : String → String)
    (hempty : ∀ s, toLower s = "" ↔ s = "") (now : Int) (l : Link) (w : Weights)
    (xs ys : List String) :
    scoreLink toLower now l w (xs ++ "" :: ys)
      = scoreLink toLower now l w (xs ++ ys)
        + w.Weights.Title + w.Weights.Comment
        + (if "" ∈ l.Tags then w.Weights.Tag else 0)
        + w.Weights.Label *
            ((l.Labels.filter (fun kv => decide (kv.1 = "" ∨ kv.2 = ""))).length : ℚ)
    ∧ ((∀ tag ∈ l.Tags, tag ≠ "") → (∀ kv ∈ l.Labels, kv.1 ≠ "" ∧ kv.2 ≠ "") →
        scoreLink toLower now l w (xs ++ "" :: ys)
          = scoreLink toLower now l w (xs ++ ys) + w.Weights.Title + w.Weights.Comment) := by
  have hmain : scoreLink toLower now l w (xs ++ "" :: ys)
      = scoreLink toLower now l w (xs ++ ys)
        + w.Weights.Title + w.Weights.Comment
        + (if "" ∈ l.Tags then w.Weights.Tag else 0)
        + w.Weights.Label *
            ((l.Labels.filter (fun kv => decide (kv.1 = "" ∨ kv.2 = ""))).length : ℚ) := by
    simp only [scoreLink_sum, List.map_append, List.sum_append, List.map_cons, List.sum_cons,
      termRef_empty toLower hempty l w]
    ring
  refine ⟨hmain, fun htags hlabels => ?_⟩
  have h1 : ¬ "" ∈ l.Tags := fun hmem => htags "" hmem rfl
  have h2 : l.Labels.filter (fun kv => decide (kv.1 = "" ∨ kv.2 = "")) = [] := by
    rw [List.filter_eq_nil_iff]
    intro kv hkv
    have h3 := hlabels kv hkv
    simp [h3.1, h3.2]
  rw [hmain, if_neg h1, h2]
  simp

/-- The empty term on a link whose tags, label keys and label values are all
non-empty adds the title weight and the comment weight. -/
theorem empty_term_score_witness :
    scoreLink asciiLower 7 mixedCase defaultWeights ["go", "", "read"]
      = scoreLink asciiLower 7 mixedCase defaultWeights ["go", "read"]
        + defaultWeights.Weights.Title + defaultWeights.Weights.Comment :=
  (empty_term_score asciiLower asciiLower_eq_empty 7 mixedCase defaultWeights ["go"]
    ["read"]).2 (by decide) (by decide)

/-- The link `emptyKey` has a non-empty tag and a label with a non-empty value,
parsed by `parseLabels` from the argument `=prod`; the empty term scores 5.5
on it, not the 4 that the title weight plus the comment weight give. -/
theorem empty_term_counterexample :
    "" ∉ emptyKey.Tags ∧ "" ∉ emptyKey.Labels.map Prod.snd
    ∧ emptyKey.Labels = [("", "prod")]
    ∧ scoreLink asciiLower 0 emptyKey defaultWeights [""] = 11 / 2
    ∧ scoreLink asciiLower 0 emptyKey defaultWeights []
        + defaultWeights.Weights.Title + defaultWeights.Weights.Comment = 4 := by
  have hl : asciiLower "" = "" := by decide
  have hlab : emptyKey.Labels = [("", "prod")] := by decide
  have h5 : emptyKey.LastOpened = 0 := rfl
  have h6 : emptyKey.OpenCount = 0 := rfl
  refine ⟨by decide, by decide, hlab, ?_, ?_⟩
  · have h1 : contains asciiLower emptyKey.Tags "" = false := by decide
    have h2 : stringsContains (asciiLower emptyKey.Title) "" = true := by decide
    have h3 : stringsContains (asciiLower emptyKey.Comment) "" = true := by decide
    have e1 : (("" : String) = "" ∨ ("" : String) = "prod"
        ∨ ("" : String) = "" ++ "=" ++ "prod") := by decide
    simp only [scoreLink, termLoopBody, labelLoop, List.foldl_cons, List.foldl_nil, hl, h1, h2,
      h3, hlab, e1, h5, h6, ne_eq, not_true_eq_false, if_false, if_true, Bool.false_eq_true,
      defaultWeights]
    norm_num
  · simp only [scoreLink, List.foldl_nil, h5, h6, ne_eq, not_true_eq_false, if_false,
      defaultWeights]
    norm_num

/-! ## C8: recency decay -/

/-- C8, as the code has it: the recency step of `scoreLink` adds nothing for a
link whose `LastOpened` is the zero value, and otherwise adds the recency
weight divided by `days + 1`, where `days` is the duration `time.Since`
returns over 24 hours. That duration is `now - LastOpened` whenever the
difference is in the range of a duration, the largest duration when the
difference is above the range and the smallest when it is below. When the
recency weight is not negative and `LastOpened` is not later than `now`, the
divisor is at least 1 and what is added lies between 0 and the recency weight;
and among opened links what is added does not increase when the time since
the last opening grows. The score before the recency step is the score under
`withoutRecency w`. -/
theorem recency_decay (toLower : String → String) (now : Int) (l : Link) (w : Weights)
    (terms : List String) :
    (l.LastOpened = 0 →
        scoreLink toLower now l w terms = scoreLink toLower now l (withoutRecency w) terms)
    ∧ (l.LastOpened ≠ 0 →
        scoreLink toLower now l w terms
          = scoreLink toLower now l (withoutRecency w) terms
            + w.Weights.Recency
                / (((timeSince now l.LastOpened : Int) : ℚ) / 86400000000000 + 1))
    ∧ (minDuration ≤ now - l.LastOpened → now - l.LastOpened ≤ maxDuration →
        timeSince now l.LastOpened = now - l.LastOpened)
    ∧ (maxDuration < now - l.LastOpened → timeSince now l.LastOpened = maxDuration)
    ∧ (now - l.LastOpened < minDuration → timeSince now l.LastOpened = minDuration)
    ∧ (0 ≤ w.Weights.Recency → l.LastOpened ≤ now →
        1 ≤ ((timeSince now l.LastOpened : Int) : ℚ) / 86400000000000 + 1
        ∧ scoreLink toLower now l (withoutRecency w) terms ≤ scoreLink toLower now l w terms
        ∧ scoreLink toLower now l w terms
            ≤ scoreLink toLower now l (withoutRecency w) terms + w.Weights.Recency)
    ∧ (0 ≤ w.Weights.Recency → l.LastOpened ≠ 0 → l.LastOpened ≤ now →
        ∀ (now₂ t₂ : Int), t₂ ≠ 0 → now - l.LastOpened ≤ now₂ - t₂ →
          scoreLink toLower now₂ { l with LastOpened := t₂ } w terms
              - scoreLink toLower now₂ { l with LastOpened := t₂ } (withoutRecency w) terms
            ≤ scoreLink toLower now l w terms
              - scoreLink toLower now l (withoutRecency w) terms) := by
  have hdays : ∀ (n t : Int), t ≤ n →
      (1 : ℚ) ≤ ((timeSince n t : Int) : ℚ) / 86400000000000 + 1 := by
    intro n t h
    have h1 : (0 : ℚ) ≤ ((timeSince n t : Int) : ℚ) := by
      exact_mod_cast timeSince_nonneg n t h
    have h2 : (0 : ℚ) ≤ ((timeSince n t : Int) : ℚ) / 86400000000000 :=
      div_nonneg h1 (by norm_num)
    linarith
  refine ⟨fun h0 => ?_, fun h0 => ?_, fun hlo hhi => timeSince_of_fits _ _ hlo hhi,
    fun hhi => timeSince_above _ _ hhi, fun hlo => timeSince_below _ _ hlo,
    fun hw hle => ?_, fun hw h0 hle now₂ t₂ ht₂ hgrow => ?_⟩
  · rw [scoreLink_withoutRecency, recencyRef, if_pos h0, add_zero]
  · rw [scoreLink_withoutRecency, recencyRef, if_neg h0]
  · have hd := hdays now l.LastOpened hle
    refine ⟨hd, ?_, ?_⟩
    · rw [scoreLink_withoutRecency toLower now l w terms, recencyRef]
      split_ifs
      · linarith
      · have := div_nonneg hw (le_trans zero_le_one hd)
        linarith
    · rw [scoreLink_withoutRecency toLower now l w terms, recencyRef]
      split_ifs
      · linarith
      · have := div_le_self hw hd
        linarith
  · have hd := hdays now l.LastOpened hle
    have hmono : ((timeSince now l.LastOpened : Int) : ℚ)
        ≤ ((timeSince now₂ t₂ : Int) : ℚ) := by
      exact_mod_cast timeSince_mono now l.LastOpened now₂ t₂ hgrow
    rw [scoreLink_withoutRecency toLower now l w terms,
      scoreLink_withoutRecency toLower now₂ { l with LastOpened := t₂ } w terms]
    simp only [recencyRef, if_neg h0, if_neg ht₂, add_sub_cancel_left]
    apply div_le_div_of_nonneg_left hw (by linarith)
    have : ((timeSince now l.LastOpened : Int) : ℚ) / 86400000000000
        ≤ ((timeSince now₂ t₂ : Int) : ℚ) / 86400000000000 :=
      div_le_div_of_nonneg_right hmono (by norm_num)
    linarith

/-- A link opened two days before `now`: the score lies between the score
before the recency step and that score plus the recency weight. -/
theorem recency_decay_witness :
    (1 : ℚ) ≤ ((timeSince (738002 * 86400000000000) openedLink.LastOpened : Int) : ℚ)
        / 86400000000000 + 1
    ∧ scoreLink asciiLower (738002 * 86400000000000) openedLink
          (withoutRecency defaultWeights) ["go"]
        ≤ scoreLink asciiLower (738002 * 86400000000000) openedLink defaultWeights ["go"]
    ∧ scoreLink asciiLower (738002 * 86400000000000) openedLink defaultWeights ["go"]
        ≤ scoreLink asciiLower (738002 * 86400000000000) openedLink
            (withoutRecency defaultWeights) ["go"] + defaultWeights.Weights.Recency :=
  (recency_decay asciiLower (738002 * 86400000000000) openedLink defaultWeights
    ["go"]).2.2.2.2.2.1 (by norm_num [defaultWeights]) (by decide)

/-- The link `oldLink`, last opened on 1 January 1700, scored on 4 November
2026 (day 739923): `now - LastOpened` is 119376 days, above the largest
duration, so `time.Since` returns the largest duration and the recency step
adds 1728000000000/9223458436854775807, not the 1/5968850 that the recency
weight over `(now - LastOpened)/24h + 1` gives. -/
theorem recency_unsaturated_counterexample :
    oldLink.LastOpened ≠ 0
    ∧ (739923 * 86400000000000 : Int) - oldLink.LastOpened = 119376 * 86400000000000
    ∧ timeSince (739923 * 86400000000000) oldLink.LastOpened = 9223372036854775807
    ∧ scoreLink asciiLower (739923 * 86400000000000) oldLink (withoutRecency defaultWeights) []
        = 0
    ∧ scoreLink asciiLower (739923 * 86400000000000) oldLink defaultWeights []
        = 1728000000000 / 9223458436854775807
    ∧ defaultWeights.Weights.Recency
          / ((((739923 * 86400000000000 : Int) - oldLink.LastOpened : Int) : ℚ)
              / 86400000000000 + 1)
        = 1 / 5968850
    ∧ (1728000000000 / 9223458436854775807 : ℚ) ≠ 1 / 5968850 := by
  have hlast : oldLink.LastOpened = 620547 * 86400000000000 := rfl
  have hcount : oldLink.OpenCount = 0 := rfl
  have hsince : timeSince (739923 * 86400000000000) (620547 * 86400000000000)
      = 9223372036854775807 := by decide
  refine ⟨by decide, by decide, by rw [hlast]; exact hsince, ?_, ?_, ?_, by norm_num⟩
  · simp only [scoreLink_sum, recencyRef, withoutRecency, hlast, hcount, hsince, List.map_nil,
      List.sum_nil]
    norm_num
  · simp only [scoreLink_sum, recencyRef, defaultWeights, hlast, hcount, hsince, List.map_nil,
      List.sum_nil]
    norm_num
  · simp only [hlast, defaultWeights]
    norm_num

/-! ## C1: what the ranked result contains -/

/-- C1: for every store, term list and weights, the ranked result of `main` is
a rearrangement of the links of the store for which the term list is empty or
the score is greater than 0, each paired with its score: a link with its score
occurs in the result as many times as the link occurs in the store when it is
kept and not at all otherwise, and every entry carries the score of its link.
With no terms the links of the result are those of the store, each once; with
at least one term a link is in the result exactly when it is in the store and
its score is greater than 0; an empty store gives an empty result. -/
theorem rank_contents (toLower : String → String) (now : Int) (store : Store) (w : Weights)
    (terms : List String) :
    (rank toLower now store w terms).Perm
      ((store.Links.filter
          (fun l => decide (terms = [] ∨ scoreLink toLower now l w terms > 0))).map
        (fun l => (⟨l, scoreLink toLower now l w terms⟩ : scored)))
    ∧ (∀ l : Link,
        (rank toLower now store w terms).count ⟨l, scoreLink toLower now l w terms⟩
          = if terms = [] ∨ scoreLink toLower now l w terms > 0
              then store.Links.count l else 0)
    ∧ (∀ s ∈ rank toLower now store w terms,
        s.Score = scoreLink toLower now s.Link w terms)
    ∧ (terms = [] →
        ((rank toLower now store w terms).map scored.Link).Perm store.Links)
    ∧ (terms ≠ [] → ∀ l : Link,
        l ∈ (rank toLower now store w terms).map scored.Link
          ↔ l ∈ store.Links ∧ scoreLink toLower now l w terms > 0)
    ∧ (store.Links = [] → rank toLower now store w terms = []) := by
  have hperm := rank_perm toLower now store w terms
  have hinj : Function.Injective
      (fun l => (⟨l, scoreLink toLower now l w terms⟩ : scored)) := by
    intro a b hab
    exact congrArg scored.Link hab
  refine ⟨hperm, fun l => ?_, fun s hs => ?_, fun hnil => ?_, fun hne l => ?_, fun hempty => ?_⟩
  · rw [hperm.count_eq,
      List.count_map_of_injective _ (fun l => (⟨l, scoreLink toLower now l w terms⟩ : scored))
        hinj l]
    by_cases h : terms = [] ∨ scoreLink toLower now l w terms > 0
    · rw [if_pos h, List.count_filter (by simpa using h)]
    · rw [if_neg h]
      apply List.count_eq_zero_of_not_mem
      intro hmem
      have := (List.mem_filter.mp hmem).2
      exact h (by simpa using this)
  · have hmem := hperm.mem_iff.mp hs
    obtain ⟨l, _, rfl⟩ := List.mem_map.mp hmem
    rfl
  · have h2 := hperm.map scored.Link
    rw [List.map_map] at h2
    have h3 : store.Links.filter
        (fun l => decide (terms = [] ∨ scoreLink toLower now l w terms > 0)) = store.Links := by
      rw [List.filter_eq_self]
      intro l _
      simp [hnil]
    rw [h3] at h2
    simpa [Function.comp_def] using h2
  · have h2 := (hperm.map scored.Link).mem_iff (a := l)
    rw [h2, List.map_map]
    simp [Function.comp_def, List.mem_filter, hne]
  · have h2 := hperm
    rw [hempty] at h2
    simpa using h2

/-! ## C2: the ranked result is sorted -/

/-- C2: for every store, term list and weights, the ranked result of `main` is
in descending score order: for every adjacent pair `(a, b)` of the result,
`a.Score ≥ b.Score`. -/
theorem rank_sorted (toLower : String → String) (now : Int) (store : Store) (w : Weights)
    (terms : List String) :
    List.Chain' (fun a b : scored => a.Score ≥ b.Score) (rank toLower now store w terms) := by
  unfold rank
  exact (sortSlice_score_sorted _).chain'

/-! ## C9: the tags stored by the add path -/

/-- C9, as the code has it: `handleAdd` does not change the case of a tag. On
an argument list with at least three entries on which it does not panic, it
appends one link to the store, and every tag of that link is an argument that
follows a `--tag` argument after the url, exactly as given. So when every
argument that follows a `--tag` argument is a lowercase string, a store whose
links all have lowercase tags still has only lowercase tags after the add. -/
theorem handleAdd_tags_as_given (toLower : String → String) (args : List String)
    (unixNano : Int) (store store' : Store) (hlen : 3 ≤ args.length)
    (hadd : handleAdd args unixNano store = .ok store') :
    ∃ link : Link, store'.Links = store.Links ++ [link]
      ∧ (∀ tag ∈ link.Tags,
          ∃ i, 3 ≤ i ∧ args[i]? = some "--tag" ∧ args[i + 1]? = some tag)
      ∧ ((∀ (i : Nat) (v : String), 3 ≤ i → args[i]? = some "--tag" →
            args[i + 1]? = some v → toLower v = v) →
          (∀ l ∈ store.Links, ∀ tag ∈ l.Tags, toLower tag = tag) →
          ∀ l ∈ store'.Links, ∀ tag ∈ l.Tags, toLower tag = tag) := by
  unfold handleAdd at hadd
  rw [if_neg (by omega)] at hadd
  cases hfl : flagLoop args.length (args.drop 3) 3 ⟨"", "", [], []⟩ with
  | error e =>
    rw [hfl] at hadd
    cases hadd
  | ok st =>
    rw [hfl] at hadd
    simp only [Except.ok.injEq] at hadd
    subst hadd
    have htags : ∀ tag ∈ (newLink unixNano (args.getD 2 "") st).Tags,
        ∃ i, 3 ≤ i ∧ args[i]? = some "--tag" ∧ args[i + 1]? = some tag := by
      intro tag htag
      rcases flagLoop_tags args.length (args.drop 3).length (args.drop 3) 3 _ st
          (le_refl _) hfl tag htag with h | h
      · simp at h
      · obtain ⟨j, h1, h2⟩ := h
        rw [List.getElem?_drop] at h1 h2
        exact ⟨3 + j, by omega, h1, by rw [add_assoc]; exact h2⟩
    refine ⟨newLink unixNano (args.getD 2 "") st, rfl, htags, ?_⟩
    intro hargs hstore l hl tag htag
    simp only [List.mem_append, List.mem_singleton] at hl
    rcases hl with hl | hl
    · exact hstore l hl tag htag
    · subst hl
      obtain ⟨i, hi, h1, h2⟩ := htags tag htag
      exact hargs i tag hi h1 h2

/-- An add with the lowercase tags go and cli to a store holding the scenario
link: the link is appended with these two tags. -/
theorem handleAdd_tags_as_given_witness :
    ∃ link : Link,
      (⟨[goBlog, newLink 5 "https://pkg.go.dev" ⟨"", "", ["go", "cli"], []⟩]⟩ : Store).Links
          = (⟨[goBlog]⟩ : Store).Links ++ [link]
      ∧ (∀ tag ∈ link.Tags,
          ∃ i, 3 ≤ i
            ∧ ["quick", "add", "https://pkg.go.dev", "--tag", "go", "--tag", "cli"][i]?
                = some "--tag"
            ∧ ["quick", "add", "https://pkg.go.dev", "--tag", "go", "--tag", "cli"][i + 1]?
                = some tag)
      ∧ ((∀ (i : Nat) (v : String), 3 ≤ i →
            ["quick", "add", "https://pkg.go.dev", "--tag", "go", "--tag", "cli"][i]?
                = some "--tag" →
            ["quick", "add", "https://pkg.go.dev", "--tag", "go", "--tag", "cli"][i + 1]?
                = some v →
            asciiLower v = v) →
          (∀ l ∈ (⟨[goBlog]⟩ : Store).Links, ∀ tag ∈ l.Tags, asciiLower tag = tag) →
          ∀ l ∈ (⟨[goBlog, newLink 5 "https://pkg.go.dev"
                    ⟨"", "", ["go", "cli"], []⟩]⟩ : Store).Links,
            ∀ tag ∈ l.Tags, asciiLower tag = tag) :=
  handleAdd_tags_as_given asciiLower
    ["quick", "add", "https://pkg.go.dev", "--tag", "go", "--tag", "cli"] 5 ⟨[goBlog]⟩
    ⟨[goBlog, newLink 5 "https://pkg.go.dev" ⟨"", "", ["go", "cli"], []⟩]⟩ (by decide) rfl

/-- The add of a url with the tag Go, typed with a capital letter, to an empty
store: the stored link has the tag Go, which is not a lowercase string. -/
theorem handleAdd_tags_counterexample :
    handleAdd ["quick", "add", "https://go.dev", "--tag", "Go"] 5 ⟨[]⟩
        = .ok ⟨[newLink 5 "https://go.dev" ⟨"", "", ["Go"], []⟩]⟩
    ∧ (newLink 5 "https://go.dev" ⟨"", "", ["Go"], []⟩).Tags = ["Go"]
    ∧ asciiLower "Go" = "go" ∧ asciiLower "Go" ≠ "Go" :=
  ⟨rfl, rfl, by decide, by decide⟩

/-! ## C10: the flag loop reads past the arguments -/

/-- C10, on the code: when the last argument is one of the flags `--title`,
`--comment`, `--tag`, `--label`, the flag loop of `handleAdd` steps the index
to the length of the argument list and reads there: with the four arguments
quick, add, a url and `--title` it reads index 4 of 4 and panics, and so it
does for each of the four flags after any url. Whenever `handleAdd` panics,
the index it read is the length of the argument list. -/
theorem handleAdd_trailing_flag_panics :
    handleAdd ["quick", "add", "https://go.dev", "--title"] 5 ⟨[]⟩
        = .error (.indexOutOfRange 4 4)
    ∧ (∀ (prog url flag : String) (unixNano : Int) (store : Store),
        flag ∈ ["--title", "--comment", "--tag", "--label"] →
        handleAdd [prog, "add", url, flag] unixNano store = .error (.indexOutOfRange 4 4))
    ∧ (∀ (args : List String) (unixNano : Int) (store : Store) (e : RuntimeError),
        handleAdd args unixNano store = .error e →
        e = .indexOutOfRange args.length args.length) := by
  refine ⟨rfl, ?_, ?_⟩
  · intro prog url flag unixNano store hflag
    simp only [List.mem_cons, List.mem_singleton, List.not_mem_nil, or_false] at hflag
    have hcond : flag = "--title" ∨ flag = "--comment" ∨ flag = "--tag" ∨ flag = "--label" :=
      hflag
    simp [handleAdd, flagLoop, hcond]
  · intro args unixNano store e hrun
    unfold handleAdd at hrun
    by_cases hlen : args.length < 3
    · rw [if_pos hlen] at hrun
      cases hrun
    · rw [if_neg hlen] at hrun
      cases hfl : flagLoop args.length (args.drop 3) 3 ⟨"", "", [], []⟩ with
      | ok st =>
        rw [hfl] at hrun
        cases hrun
      | error e' =>
        rw [hfl] at hrun
        simp only [Except.error.injEq] at hrun
        subst hrun
        have h := flagLoop_error args.length (args.drop 3).length (args.drop 3) 3 _ e'
          (le_refl _) hfl
        rw [h, List.length_drop]
        congr 1
        omega

end Quick
